import Mathlib

/-!
Shallow embedding of `federatedscope/autotune/fedex/server.py` (FedExServer):
the bandit policy engine of the FedEx hyperparameter-search server.

Numpy float arrays are modelled as `List ℝ`; exceptions raised by Python are
modelled with `Except`, where the error also carries the server state at the
moment of the raise (Python mutates `self` in place, so mutations performed
before a raise persist).
-/

open Real

noncomputable section

namespace FedEx

/-- Python exceptions that the embedded code can raise. -/
inductive PyErr where
  | nameError : String → PyErr
  | notImplementedError : PyErr
  | attributeError : String → PyErr
  deriving DecidableEq

/-- One element of the `feedbacks` list passed to `update_policy`: the code
reads `tp[0]` (sample size), `tp[1]` (per-aspect arm indices) and `tp[2]`
(the single loss value a client reports). -/
structure Feedback where
  sampleSize : ℝ
  arms : List ℕ
  loss : ℝ

/-- The mutable policy state of `FedExServer`: `self._z`, `self._theta`,
`self._store`, `self._eta0`, the four `self._trace` series and
`self._stop_exploration`. -/
structure FedExState where
  z : List (List ℝ)
  theta : List (List ℝ)
  store : List ℝ
  eta0 : List ℝ
  traceGlobal : List ℝ
  traceRefine : List ℝ
  traceEntropy : List ℝ
  traceMle : List ℝ
  stopExploration : Bool

/-- The configuration fields of `cfg.hpo.fedex` consumed by `update_policy`. -/
structure FedExCfg where
  diff : Bool
  gamma : ℝ
  sched : String
  cutoff : ℝ

/-- `np.inner` on two equal-length vectors (`zip` truncates like numpy
broadcasting never has to here). -/
def innerProd (a b : List ℝ) : ℝ :=
  ((a.zip b).map fun p => p.1 * p.2).sum

/-- `discounted_mean(trace, factor)` from the top of `server.py`:
`weight = factor ** flip(arange(n))`, then `inner(trace, weight) / weight.sum()`. -/
def discountedMean (trace : List ℝ) (factor : ℝ) : ℝ :=
  let weights := (List.range trace.length).map fun k => factor ^ (trace.length - 1 - k)
  innerProd trace weights / weights.sum

/-- `scipy.special.logsumexp` on a vector. -/
def logsumexp (l : List ℝ) : ℝ :=
  Real.log ((l.map Real.exp).sum)

/-- `theta[theta > 0.0]`: the subvector of strictly positive entries. -/
def posPart (l : List ℝ) : List ℝ :=
  l.filter fun x => decide (0 < x)

/-- The joint support of the product distribution: `itertools.product` over
each aspect's positive-probability entries, as `List.sections`. -/
def jointProbs (ths : List (List ℝ)) : List (List ℝ) :=
  (ths.map posPart).sections

/-- `FedExServer.entropy`: `- Σ prod(probs) * log(prod(probs))` over the
cartesian product of the positive entries of each `theta`. -/
def entropy (ths : List (List ℝ)) : ℝ :=
  ((jointProbs ths).map fun c => -(c.prod * Real.log c.prod)).sum

/-- `np.max` of a vector (the code never applies it to an empty aspect). -/
def listMax : List ℝ → ℝ
  | [] => 0
  | x :: xs => xs.foldl max x

/-- `FedExServer.mle`: `np.prod([theta.max() for theta in self._theta])`. -/
def mle (ths : List (List ℝ)) : ℝ :=
  (ths.map listMax).prod

/-- Helper for `np.argmax`: scan the tail keeping the first index of the
maximum seen so far (numpy returns the first occurrence of the maximum). -/
def argmaxAux : List ℝ → ℕ → ℕ → ℝ → ℕ
  | [], _, best, _ => best
  | x :: xs, i, best, bestVal =>
    if bestVal < x then argmaxAux xs (i + 1) i x else argmaxAux xs (i + 1) best bestVal

/-- `np.argmax` on a vector: index of the maximum, lowest index on ties. -/
def argmaxIdx : List ℝ → ℕ
  | [] => 0
  | x :: xs => argmaxAux xs 1 0 x

/-- The arm indices chosen by `FedExServer.sample`: when exploration has
stopped, `[theta.argmax() for theta in self._theta]`; otherwise the indices
are whatever `np.random.choice` draws, injected here as `draws`. -/
def sampleIdx (s : FedExState) (draws : List ℕ) : List ℕ :=
  if s.stopExploration then s.theta.map argmaxIdx else draws

/-- The policy initialization in `FedExServer.__init__` (after `self._cfsp`
is known), parameterized by the sizes `[len(cand_set) for cand_set in
self._cfsp]`: `eta0 = sqrt(2 log size)`, `z = full(size, -log size)`,
`theta = exp(z)`, `store = 0.0` per aspect, traces seeded with the initial
entropy and mle, `stop_exploration = False`. -/
def initPolicy (sizes : List ℕ) : FedExState :=
  let z := sizes.map fun n => List.replicate n (-Real.log n)
  let theta := z.map fun l => l.map Real.exp
  { z := z
    theta := theta
    store := sizes.map fun _ => (0 : ℝ)
    eta0 := sizes.map fun n => Real.sqrt (2 * Real.log n)
    traceGlobal := []
    traceRefine := []
    traceEntropy := [entropy theta]
    traceMle := [mle theta]
    stopExploration := false }

/-- The action-space construction at the top of `FedExServer.__init__`:
with `flatten_ss` the searched space is one flat aspect whose candidate list
comes from `random_search` (its length is `numArms`); with `flatten_ss`
false the `else` branch is a bare `pass` (a `TODO` in the source), so
`self._cfsp` is never assigned and the following read
`sizes = [len(cand_set) for cand_set in self._cfsp]` raises
`AttributeError`. -/
def initServer (flatten : Bool) (numArms : ℕ) : Except PyErr FedExState :=
  if flatten then .ok (initPolicy [numArms])
  else .error (.attributeError "_cfsp")

/-- The per-round signal vector of `update_policy`:
`after - before if self._cfg.hpo.fedex.diff else after`. -/
def signals (diff : Bool) (after before : List ℝ) : List ℝ :=
  if diff then (after.zip before).map (fun p => p.1 - p.2) else after

/-- The normalized participant weights of `update_policy`:
`weight = asarray([tp[0] for tp in feedbacks]); weight /= weight.sum()`. -/
def weightsOf (fb : List Feedback) : List ℝ :=
  (fb.map (·.sampleSize)).map (· / (fb.map (·.sampleSize)).sum)

/-- The baseline of `update_policy`: `0` when the refine trace is empty,
otherwise the discounted mean of the refine trace (with the global trace
subtracted elementwise when `diff` is configured). -/
def baselineOf (cfg : FedExCfg) (s : FedExState) : ℝ :=
  if s.traceRefine = [] then 0
  else
    discountedMean
      (if cfg.diff
        then (s.traceRefine.zip s.traceGlobal).map fun p => p.1 - p.2
        else s.traceRefine)
      cfg.gamma

/-- The per-feedback triples `zip(index, signal, weight)` iterated by the
gradient loop.  Both `before` and `after` are read from the same tuple
element `tp[2]`, exactly as in the source. -/
def itemsOf (cfg : FedExCfg) (fb : List Feedback) : List (List ℕ × ℝ × ℝ) :=
  (fb.map (·.arms)).zip
    ((signals cfg.diff (fb.map (·.loss)) (fb.map (·.loss))).zip (weightsOf fb))

/-- The value `update_policy` appends to the global trace
(`np.inner(before, weight)`) and, since `after` is read from the same tuple
element as `before`, also the value it appends to the refine trace. -/
def roundVal (fb : List Feedback) : ℝ :=
  innerProd (fb.map (·.loss)) (weightsOf fb)

/-- The gradient loop of `update_policy` for aspect `i`:
`grad = zeros(n)`, then for each `(idx, s, w)` in `zip(index, signal,
weight)`: `grad[idx[i]] += w * (s - baseline) / theta_i[idx[i]]`. -/
def gradOf (theta_i : List ℝ) (baseline : ℝ) (items : List (List ℕ × ℝ × ℝ))
    (i : ℕ) (n : ℕ) : List ℝ :=
  items.foldl
    (fun g it =>
      let j := it.1.getD i 0
      g.set j (g.getD j 0 + it.2.2 * (it.2.1 - baseline) / theta_i.getD j 0))
    (List.replicate n 0)

/-- `z -= eta * grad; z -= logsumexp(z)` for one aspect. -/
def applyStep (z_i grad : List ℝ) (eta : ℝ) : List ℝ :=
  let z1 := (z_i.zip grad).map fun p => p.1 - eta * p.2
  z1.map fun x => x - logsumexp z1

/-- One iteration of the per-aspect loop of `update_policy`: build the
gradient, select the step-size schedule, and apply the log-space update.
Returns the new `z`, the new `theta` and the new `store` entry for the
aspect, or the exception the Python code raises.  The `adaptive` schedule
(and `aggressive` with a nonzero gradient) evaluates `norm(grad, inf)`, but
`norm` is never imported in `server.py`, so Python raises
`NameError: name 'norm' is not defined` before touching any state; an
unknown schedule name falls into the trailing `raise NotImplementedError`. -/
def schedStep (cfg : FedExCfg) (eta0_i store_i baseline : ℝ)
    (items : List (List ℕ × ℝ × ℝ)) (i : ℕ) (z_i theta_i : List ℝ) :
    Except PyErr (List ℝ × List ℝ × ℝ) :=
  let grad := gradOf theta_i baseline items i z_i.length
  if cfg.sched = "adaptive" then
    .error (.nameError "norm")
  else if cfg.sched = "aggressive" then
    if ∀ x ∈ grad, x = 0 then
      let z2 := applyStep z_i grad eta0_i
      .ok (z2, z2.map Real.exp, store_i)
    else .error (.nameError "norm")
  else if cfg.sched = "auto" then
    let z2 := applyStep z_i grad (eta0_i / Real.sqrt (store_i + 1))
    .ok (z2, z2.map Real.exp, store_i + 1)
  else if cfg.sched = "constant" then
    let z2 := applyStep z_i grad eta0_i
    .ok (z2, z2.map Real.exp, store_i)
  else if cfg.sched = "scale" then
    let eta := if 1 < z_i.length
      then eta0_i / (1 / Real.sqrt (2 * Real.log z_i.length))
      else 0
    let z2 := applyStep z_i grad eta
    .ok (z2, z2.map Real.exp, store_i)
  else .error .notImplementedError

/-- The `for i, (z, theta) in enumerate(zip(self._z, self._theta))` loop of
`update_policy`.  On an exception the already-updated prefix is kept (Python
mutates the arrays in place), and the aspect being processed together with
the unprocessed suffix keep their old values. -/
def stepAspects (cfg : FedExCfg) (baseline : ℝ) (items : List (List ℕ × ℝ × ℝ)) :
    ℕ → List (List ℝ) → List (List ℝ) → List ℝ → List ℝ →
    Except (PyErr × List (List ℝ) × List (List ℝ) × List ℝ)
      (List (List ℝ) × List (List ℝ) × List ℝ)
  | _, [], ths, sts, _ => .ok ([], ths, sts)
  | _, z :: zr, [], sts, _ => .ok (z :: zr, [], sts)
  | i, z :: zr, th :: thr, sts, e0s =>
    match schedStep cfg (e0s.getD i 0) (sts.getD i 0) baseline items i z th with
    | .error e => .error (e, z :: zr, th :: thr, sts)
    | .ok (z2, th2, st2) =>
      match stepAspects cfg baseline items (i + 1) zr thr (sts.set i st2) e0s with
      | .error (e, zr2, thr2, sts2) => .error (e, z2 :: zr2, th2 :: thr2, sts2)
      | .ok (zr2, thr2, sts2) => .ok (z2 :: zr2, th2 :: thr2, sts2)

/-- `FedExServer.update_policy`.  The result state is returned in `.ok`, or
carried alongside the exception in `.error` (mutations made before the raise
persist on `self`). -/
def updatePolicy (cfg : FedExCfg) (fb : List Feedback) (s : FedExState) :
    Except (PyErr × FedExState) FedExState :=
  if s.stopExploration then
    .ok { s with
      traceGlobal := s.traceGlobal ++ [roundVal fb]
      traceRefine := s.traceRefine ++ [roundVal fb]
      traceEntropy := s.traceEntropy ++ [0]
      traceMle := s.traceMle ++ [1] }
  else
    match stepAspects cfg (baselineOf cfg s) (itemsOf cfg fb) 0 s.z s.theta s.store s.eta0 with
    | .error (e, zs, ths, sts) =>
      .error (e, { s with
        z := zs, theta := ths, store := sts
        traceGlobal := s.traceGlobal ++ [roundVal fb]
        traceRefine := s.traceRefine ++ [roundVal fb] })
    | .ok (zs, ths, sts) =>
      .ok { s with
        z := zs, theta := ths, store := sts
        traceGlobal := s.traceGlobal ++ [roundVal fb]
        traceRefine := s.traceRefine ++ [roundVal fb]
        traceEntropy := s.traceEntropy ++ [entropy ths]
        traceMle := s.traceMle ++ [mle ths]
        stopExploration := if entropy ths < cfg.cutoff then true else s.stopExploration }

/-- The server state after a call, whether or not the call raised. -/
def outState (r : Except (PyErr × FedExState) FedExState) : FedExState :=
  match r with
  | .ok s => s
  | .error (_, s) => s

/-- The post-update log-probability vector of Scenario A (single aspect,
three arms, uniform start, constant schedule, equal weights): the
exponential-weights step applied to the uniform `z` with gradient
`[l0, l1, l2]`. -/
def scenarioA_z (l0 l1 l2 : ℝ) : List ℝ :=
  applyStep [-Real.log 3, -Real.log 3, -Real.log 3] [l0, l1, l2] (Real.sqrt (2 * Real.log 3))

lemma sumExp_pos (l : List ℝ) (h : l ≠ []) : 0 < (l.map Real.exp).sum := by
  apply List.sum_pos
  · intro x hx
    simp only [List.mem_map] at hx
    obtain ⟨y, _, rfl⟩ := hx
    exact Real.exp_pos y
  · simpa using h

lemma renorm_sumExp (l : List ℝ) (h : l ≠ []) :
    ((l.map fun x => x - logsumexp l).map Real.exp).sum = 1 := by
  have hS : 0 < (l.map Real.exp).sum := sumExp_pos l h
  have hexp : Real.exp (logsumexp l) = (l.map Real.exp).sum :=
    Real.exp_log hS
  rw [List.map_map]
  have hfun : (Real.exp ∘ fun x => x - logsumexp l)
      = fun x => Real.exp x * (Real.exp (logsumexp l))⁻¹ := by
    funext x
    simp [Real.exp_sub, div_eq_mul_inv]
  rw [hfun, List.sum_map_mul_right, hexp]
  exact mul_inv_cancel₀ (ne_of_gt hS)

lemma gradOf_length (theta_i : List ℝ) (baseline : ℝ) (items : List (List ℕ × ℝ × ℝ))
    (i n : ℕ) : (gradOf theta_i baseline items i n).length = n := by
  unfold gradOf
  suffices h : ∀ (g : List ℝ), (items.foldl
      (fun g it =>
        let j := it.1.getD i 0
        g.set j (g.getD j 0 + it.2.2 * (it.2.1 - baseline) / theta_i.getD j 0))
      g).length = g.length by
    rw [h]; exact List.length_replicate n 0
  induction items with
  | nil => intro g; rfl
  | cons a l ih =>
    intro g
    rw [List.foldl_cons, ih]
    exact List.length_set ..

lemma applyStep_sumExp (z g : List ℝ) (eta : ℝ) (hz : z ≠ []) (hg : g ≠ []) :
    ((applyStep z g eta).map Real.exp).sum = 1 := by
  unfold applyStep
  apply renorm_sumExp
  match z, g, hz, hg with
  | a :: _, b :: _, _, _ => simp

lemma schedStep_ok_sumExp (cfg : FedExCfg) (e0 st b : ℝ)
    (items : List (List ℕ × ℝ × ℝ)) (i : ℕ) (z th : List ℝ)
    (hz : z ≠ []) (z2 th2 : List ℝ) (st2 : ℝ)
    (h : schedStep cfg e0 st b items i z th = .ok (z2, th2, st2)) :
    (z2.map Real.exp).sum = 1 ∧ th2 = z2.map Real.exp := by
  have hg : gradOf th b items i z.length ≠ [] := by
    have hlen := gradOf_length th b items i z.length
    intro hnil
    rw [hnil] at hlen
    simp at hlen
    exact hz (List.length_eq_zero.mp hlen.symm)
  have main : ∀ eta : ℝ,
      z2 = applyStep z (gradOf th b items i z.length) eta ∧
        th2 = (applyStep z (gradOf th b items i z.length) eta).map Real.exp →
      (z2.map Real.exp).sum = 1 ∧ th2 = z2.map Real.exp := by
    rintro eta ⟨rfl, rfl⟩
    exact ⟨applyStep_sumExp _ _ _ hz hg, rfl⟩
  unfold schedStep at h
  by_cases h1 : cfg.sched = "adaptive"
  · simp [h1] at h
  · by_cases h2 : cfg.sched = "aggressive"
    · by_cases hall : ∀ x ∈ gradOf th b items i z.length, x = 0
      · simp only [h1, h2, String.reduceEq, reduceIte] at h
        rw [if_pos hall] at h
        simp only [Except.ok.injEq, Prod.mk.injEq] at h
        exact main e0 ⟨h.1.symm, h.2.1.symm⟩
      · simp [h1, h2, hall] at h
    · by_cases h3 : cfg.sched = "auto"
      · simp only [h1, h2, h3, String.reduceEq, Except.ok.injEq, Prod.mk.injEq,
          reduceIte] at h
        exact main _ ⟨h.1.symm, h.2.1.symm⟩
      · by_cases h4 : cfg.sched = "constant"
        · simp only [h1, h2, h3, h4, String.reduceEq, Except.ok.injEq,
            Prod.mk.injEq, reduceIte] at h
          exact main e0 ⟨h.1.symm, h.2.1.symm⟩
        · by_cases h5 : cfg.sched = "scale"
          · simp only [h1, h2, h3, h4, h5, String.reduceEq, Except.ok.injEq,
              Prod.mk.injEq, reduceIte] at h
            exact main _ ⟨h.1.symm, h.2.1.symm⟩
          · simp [h1, h2, h3, h4, h5] at h

lemma stepAspects_ok_sumExp (cfg : FedExCfg) (b : ℝ) (items : List (List ℕ × ℝ × ℝ)) :
    ∀ (zs ths : List (List ℝ)) (sts e0s : List ℝ) (i : ℕ)
      (res : List (List ℝ) × List (List ℝ) × List ℝ),
      zs.length = ths.length → (∀ l ∈ zs, l ≠ []) →
      stepAspects cfg b items i zs ths sts e0s = .ok res →
      ∀ l ∈ res.1, (l.map Real.exp).sum = 1 := by
  intro zs
  induction zs with
  | nil =>
    intro ths sts e0s i res _ _ h l hl
    simp only [stepAspects, Except.ok.injEq] at h
    rw [← h] at hl
    simp at hl
  | cons z zr ih =>
    intro ths sts e0s i res hlen hne h l hl
    match ths, hlen with
    | th :: thr, hlen =>
      simp only [stepAspects] at h
      cases hs : schedStep cfg (e0s.getD i 0) (sts.getD i 0) b items i z th with
      | error e => rw [hs] at h; exact absurd h (by simp)
      | ok v =>
        obtain ⟨z2, th2, st2⟩ := v
        rw [hs] at h
        dsimp only at h
        cases hrec : stepAspects cfg b items (i + 1) zr thr (sts.set i st2) e0s with
        | error e =>
          rw [hrec] at h
          dsimp only at h
          exact absurd h (by simp)
        | ok w =>
          obtain ⟨zr2, thr2, sts2⟩ := w
          rw [hrec] at h
          dsimp only at h
          simp only [Except.ok.injEq] at h
          rw [← h] at hl
          simp only [List.mem_cons] at hl
          rcases hl with rfl | hl
          · exact (schedStep_ok_sumExp cfg _ _ b items i z th
              (hne z (List.mem_cons_self z zr)) l th2 st2 hs).1
          · exact ih thr (sts.set i st2) e0s (i + 1) (zr2, thr2, sts2)
              (by simpa using hlen) (fun m hm => hne m (List.mem_cons_of_mem z hm))
              hrec l hl

lemma updatePolicy_stopped (cfg : FedExCfg) (fb : List Feedback) (s : FedExState)
    (hstop : s.stopExploration = true) :
    updatePolicy cfg fb s = .ok { s with
      traceGlobal := s.traceGlobal ++ [roundVal fb]
      traceRefine := s.traceRefine ++ [roundVal fb]
      traceEntropy := s.traceEntropy ++ [0]
      traceMle := s.traceMle ++ [1] } := by
  unfold updatePolicy
  rw [hstop]
  rfl

lemma updatePolicy_ok_of (cfg : FedExCfg) (fb : List Feedback) (s : FedExState)
    (zs ths : List (List ℝ)) (sts : List ℝ)
    (hstop : s.stopExploration = false)
    (hsa : stepAspects cfg (baselineOf cfg s) (itemsOf cfg fb) 0 s.z s.theta s.store s.eta0
      = .ok (zs, ths, sts)) :
    updatePolicy cfg fb s = .ok { s with
      z := zs, theta := ths, store := sts
      traceGlobal := s.traceGlobal ++ [roundVal fb]
      traceRefine := s.traceRefine ++ [roundVal fb]
      traceEntropy := s.traceEntropy ++ [entropy ths]
      traceMle := s.traceMle ++ [mle ths]
      stopExploration := if entropy ths < cfg.cutoff then true else false } := by
  unfold updatePolicy
  rw [hstop, hsa]
  rfl

lemma updatePolicy_err_of (cfg : FedExCfg) (fb : List Feedback) (s : FedExState)
    (e : PyErr) (zs ths : List (List ℝ)) (sts : List ℝ)
    (hstop : s.stopExploration = false)
    (hsa : stepAspects cfg (baselineOf cfg s) (itemsOf cfg fb) 0 s.z s.theta s.store s.eta0
      = .error (e, zs, ths, sts)) :
    updatePolicy cfg fb s = .error (e, { s with
      z := zs, theta := ths, store := sts
      traceGlobal := s.traceGlobal ++ [roundVal fb]
      traceRefine := s.traceRefine ++ [roundVal fb] }) := by
  unfold updatePolicy
  rw [hstop, hsa]
  rfl

lemma stepAspects_one (cfg : FedExCfg) (b : ℝ) (items : List (List ℕ × ℝ × ℝ))
    (z th : List ℝ) (sts e0s : List ℝ) (z2 th2 : List ℝ) (st2 : ℝ)
    (h : schedStep cfg (e0s.getD 0 0) (sts.getD 0 0) b items 0 z th = .ok (z2, th2, st2)) :
    stepAspects cfg b items 0 [z] [th] sts e0s = .ok ([z2], [th2], sts.set 0 st2) := by
  simp only [stepAspects]
  rw [h]

/-- Claim C2: after every probability-modifying call to `update_policy`
(exploration not stopped), each aspect's exponentiated log-probability
vector sums to 1 and its logsumexp is 0, for any prior state whose aspects
are nonempty and aligned. -/
theorem update_policy_normalizes (cfg : FedExCfg) (fb : List Feedback) (s s' : FedExState)
    (hstop : s.stopExploration = false)
    (hlen : s.z.length = s.theta.length)
    (hne : ∀ l ∈ s.z, l ≠ [])
    (hok : updatePolicy cfg fb s = .ok s') :
    ∀ l ∈ s'.z, (l.map Real.exp).sum = 1 ∧ logsumexp l = 0 := by
  cases hsa : stepAspects cfg (baselineOf cfg s) (itemsOf cfg fb) 0 s.z s.theta s.store s.eta0 with
  | error e =>
    obtain ⟨e1, e2, e3, e4⟩ := e
    rw [updatePolicy_err_of cfg fb s e1 e2 e3 e4 hstop hsa] at hok
    exact absurd hok (by simp)
  | ok w =>
    obtain ⟨zs, ths, sts⟩ := w
    rw [updatePolicy_ok_of cfg fb s zs ths sts hstop hsa] at hok
    simp only [Except.ok.injEq] at hok
    intro l hl
    rw [← hok] at hl
    have hz : l ∈ zs := hl
    have hsum := stepAspects_ok_sumExp cfg _ _ s.z s.theta s.store s.eta0 0
      (zs, ths, sts) hlen hne hsa l hz
    exact ⟨hsum, by rw [logsumexp, hsum, Real.log_one]⟩

lemma initPolicy_one : initPolicy [1] = ⟨[[0]], [[1]], [0], [0], [], [], [0], [1], false⟩ := by
  norm_num [initPolicy, entropy, jointProbs, posPart, List.filter_cons, List.sections,
    mle, listMax, List.replicate]

lemma run_constant_one :
    updatePolicy ⟨false, 1, "constant", -1⟩ [⟨1, [0], 0⟩] (initPolicy [1]) =
      .ok ⟨[[0]], [[1]], [0], [0], [0], [0], [0, 0], [1, 1], false⟩ := by
  have hstep : schedStep ⟨false, 1, "constant", -1⟩
      (([(0:ℝ)]).getD 0 0) (([(0:ℝ)]).getD 0 0) (baselineOf ⟨false, 1, "constant", -1⟩ (initPolicy [1]))
      (itemsOf ⟨false, 1, "constant", -1⟩ [⟨1, [0], 0⟩]) 0 [0] [1] = .ok ([0], [1], 0) := by
    norm_num [schedStep, gradOf, applyStep, logsumexp, itemsOf,
      signals, weightsOf, baselineOf, initPolicy_one]
    simp only [String.reduceEq, reduceIte]
  have hsa := stepAspects_one ⟨false, 1, "constant", -1⟩
    (baselineOf ⟨false, 1, "constant", -1⟩ (initPolicy [1]))
    (itemsOf ⟨false, 1, "constant", -1⟩ [⟨1, [0], 0⟩]) [0] [1] [0] [0] [0] [1] 0 hstep
  have hres := updatePolicy_ok_of ⟨false, 1, "constant", -1⟩ [⟨1, [0], 0⟩] (initPolicy [1])
    [[0]] [[1]] ([0].set 0 0) (by rw [initPolicy_one]) (by rw [initPolicy_one]; exact hsa)
  rw [hres, initPolicy_one]
  norm_num [entropy, jointProbs, posPart, List.filter_cons, List.sections, mle, listMax,
    roundVal, innerProd, weightsOf]

theorem update_policy_normalizes_witness :
    updatePolicy ⟨false, 1, "constant", -1⟩ [⟨1, [0], 0⟩] (initPolicy [1]) =
      .ok ⟨[[0]], [[1]], [0], [0], [0], [0], [0, 0], [1, 1], false⟩ ∧
    (([(0:ℝ)].map Real.exp).sum = 1 ∧ logsumexp [0] = 0) := by
  refine ⟨run_constant_one, ?_⟩
  exact update_policy_normalizes ⟨false, 1, "constant", -1⟩ [⟨1, [0], 0⟩]
    (initPolicy [1]) ⟨[[0]], [[1]], [0], [0], [0], [0], [0, 0], [1, 1], false⟩
    (by rw [initPolicy_one]) (by rw [initPolicy_one]; rfl) (by rw [initPolicy_one]; simp)
    run_constant_one [0] (by simp)

/-- Claim C9: every call to `update_policy` appends the same single value
(the weight-normalized mean of the tuples' loss element) to both the
`global` and the `refine` trace. -/
theorem update_policy_traces (cfg : FedExCfg) (fb : List Feedback) (s : FedExState) :
    (outState (updatePolicy cfg fb s)).traceGlobal = s.traceGlobal ++ [roundVal fb] ∧
    (outState (updatePolicy cfg fb s)).traceRefine = s.traceRefine ++ [roundVal fb] ∧
    (s.traceGlobal = s.traceRefine →
      (outState (updatePolicy cfg fb s)).traceGlobal
        = (outState (updatePolicy cfg fb s)).traceRefine) := by
  have main : (outState (updatePolicy cfg fb s)).traceGlobal = s.traceGlobal ++ [roundVal fb] ∧
      (outState (updatePolicy cfg fb s)).traceRefine = s.traceRefine ++ [roundVal fb] := by
    cases hstop : s.stopExploration with
    | true =>
      rw [updatePolicy_stopped cfg fb s hstop]
      exact ⟨rfl, rfl⟩
    | false =>
      cases hsa : stepAspects cfg (baselineOf cfg s) (itemsOf cfg fb) 0 s.z s.theta s.store s.eta0 with
      | error e =>
        obtain ⟨e1, e2, e3, e4⟩ := e
        rw [updatePolicy_err_of cfg fb s e1 e2 e3 e4 hstop hsa]
        exact ⟨rfl, rfl⟩
      | ok w =>
        obtain ⟨zs, ths, sts⟩ := w
        rw [updatePolicy_ok_of cfg fb s zs ths sts hstop hsa]
        exact ⟨rfl, rfl⟩
  exact ⟨main.1, main.2, fun hgr => by rw [main.1, main.2, hgr]⟩

theorem update_policy_traces_witness :
    (outState (updatePolicy ⟨false, 1, "constant", -1⟩ [⟨1, [0], 0⟩] (initPolicy [1]))).traceGlobal
      = (outState (updatePolicy ⟨false, 1, "constant", -1⟩ [⟨1, [0], 0⟩] (initPolicy [1]))).traceRefine :=
  (update_policy_traces ⟨false, 1, "constant", -1⟩ [⟨1, [0], 0⟩] (initPolicy [1])).2.2
    (by rw [initPolicy_one])

/-- Claim C10: at construction every aspect's log-probability vector is
constantly `-log size`, the probability vector is the uniform distribution
(each entry `1/size`, summing to 1), the entropy and mle traces start with
one entry computed from this uniform state, and the global and refine
traces start empty. -/
theorem init_policy_uniform (sizes : List ℕ) (hpos : ∀ n ∈ sizes, 1 ≤ n) :
    (initPolicy sizes).z = sizes.map (fun n => List.replicate n (-Real.log n)) ∧
    (initPolicy sizes).theta = sizes.map (fun n => List.replicate n ((n : ℝ)⁻¹)) ∧
    (∀ l ∈ (initPolicy sizes).theta, l.sum = 1) ∧
    (initPolicy sizes).traceEntropy = [entropy (initPolicy sizes).theta] ∧
    (initPolicy sizes).traceMle = [mle (initPolicy sizes).theta] ∧
    (initPolicy sizes).traceGlobal = [] ∧
    (initPolicy sizes).traceRefine = [] := by
  have htheta : (initPolicy sizes).theta = sizes.map (fun n => List.replicate n ((n : ℝ)⁻¹)) := by
    show (sizes.map fun n => List.replicate n (-Real.log n)).map (fun l => l.map Real.exp)
        = sizes.map (fun n => List.replicate n ((n : ℝ)⁻¹))
    rw [List.map_map]
    apply List.map_congr_left
    intro n hn
    have hnpos : (0 : ℝ) < n := by
      have := hpos n hn
      exact_mod_cast Nat.lt_of_lt_of_le Nat.zero_lt_one this
    show (List.replicate n (-Real.log n)).map Real.exp = List.replicate n ((n : ℝ)⁻¹)
    rw [List.map_replicate, Real.exp_neg, Real.exp_log hnpos]
  refine ⟨rfl, htheta, ?_, rfl, rfl, rfl, rfl⟩
  intro l hl
  rw [htheta] at hl
  simp only [List.mem_map] at hl
  obtain ⟨n, hn, rfl⟩ := hl
  have hnne : (n : ℝ) ≠ 0 := by
    have := hpos n hn
    positivity
  rw [List.sum_replicate, nsmul_eq_mul, mul_inv_cancel₀ hnne]

theorem init_policy_uniform_witness :
    (initPolicy [3]).theta = [[(3 : ℝ)⁻¹, 3⁻¹, 3⁻¹]] ∧
    ([(3 : ℝ)⁻¹, 3⁻¹, 3⁻¹].sum = 1) ∧
    (initPolicy [3]).traceGlobal = [] ∧
    (initPolicy [3]).traceRefine = [] := by
  obtain ⟨_, h2, h3, _, _, h6, h7⟩ := init_policy_uniform [3] (by decide)
  have hth : (initPolicy [3]).theta = [[(3 : ℝ)⁻¹, 3⁻¹, 3⁻¹]] := by
    rw [h2]; norm_num [List.replicate]
  refine ⟨hth, ?_, h6, h7⟩
  have := h3 [(3 : ℝ)⁻¹, 3⁻¹, 3⁻¹] (by rw [hth]; simp)
  exact this

lemma argmaxAux_spec (xs : List ℝ) : ∀ (i best : ℕ) (bv : ℝ),
    (argmaxAux xs i best bv = best ∧ ∀ k < xs.length, xs.getD k 0 ≤ bv) ∨
    (∃ k, k < xs.length ∧ argmaxAux xs i best bv = i + k ∧ bv < xs.getD k 0 ∧
      (∀ m < xs.length, xs.getD m 0 ≤ xs.getD k 0) ∧
      (∀ m < k, xs.getD m 0 < xs.getD k 0)) := by
  induction xs with
  | nil =>
    intro i best bv
    left
    exact ⟨rfl, by intro k hk; simp at hk⟩
  | cons x t ih =>
    intro i best bv
    by_cases hx : bv < x
    · rw [show argmaxAux (x :: t) i best bv = argmaxAux t (i + 1) i x from by
        rw [argmaxAux]; rw [if_pos hx]]
      rcases ih (i + 1) i x with ⟨heq, hle⟩ | ⟨k, hk, heq, hlt, hmax, hfirst⟩
      · right
        refine ⟨0, by simp, by rw [heq, Nat.add_zero], hx, ?_, ?_⟩
        · intro m hm
          cases m with
          | zero => simp
          | succ m' =>
            simp only [List.getD_cons_succ, List.getD_cons_zero]
            exact hle m' (by simpa using hm)
        · intro m hm; exact absurd hm (Nat.not_lt_zero m)
      · right
        refine ⟨k + 1, by simpa using hk, by rw [heq]; omega, ?_, ?_, ?_⟩
        · simp only [List.getD_cons_succ]
          exact lt_trans hx hlt
        · intro m hm
          cases m with
          | zero =>
            simp only [List.getD_cons_zero, List.getD_cons_succ]
            exact le_of_lt hlt
          | succ m' =>
            simp only [List.getD_cons_succ]
            exact hmax m' (by simpa using hm)
        · intro m hm
          cases m with
          | zero =>
            simp only [List.getD_cons_zero, List.getD_cons_succ]
            exact hlt
          | succ m' =>
            simp only [List.getD_cons_succ]
            exact hfirst m' (by omega)
    · rw [show argmaxAux (x :: t) i best bv = argmaxAux t (i + 1) best bv from by
        rw [argmaxAux]; rw [if_neg hx]]
      rcases ih (i + 1) best bv with ⟨heq, hle⟩ | ⟨k, hk, heq, hlt, hmax, hfirst⟩
      · left
        refine ⟨heq, ?_⟩
        intro m hm
        cases m with
        | zero =>
          simp only [List.getD_cons_zero]
          exact le_of_not_lt hx
        | succ m' =>
          simp only [List.getD_cons_succ]
          exact hle m' (by simpa using hm)
      · right
        refine ⟨k + 1, by simpa using hk, by rw [heq]; omega, ?_, ?_, ?_⟩
        · simp only [List.getD_cons_succ]
          exact hlt
        · intro m hm
          cases m with
          | zero =>
            simp only [List.getD_cons_zero, List.getD_cons_succ]
            exact le_of_lt (lt_of_le_of_lt (le_of_not_lt hx) hlt)
          | succ m' =>
            simp only [List.getD_cons_succ]
            exact hmax m' (by simpa using hm)
        · intro m hm
          cases m with
          | zero =>
            simp only [List.getD_cons_zero, List.getD_cons_succ]
            exact lt_of_le_of_lt (le_of_not_lt hx) hlt
          | succ m' =>
            simp only [List.getD_cons_succ]
            exact hfirst m' (by omega)

lemma argmaxIdx_spec (l : List ℝ) (hne : l ≠ []) :
    argmaxIdx l < l.length ∧
    (∀ k < l.length, l.getD k 0 ≤ l.getD (argmaxIdx l) 0) ∧
    (∀ k < argmaxIdx l, l.getD k 0 < l.getD (argmaxIdx l) 0) := by
  match l, hne with
  | x :: t, _ =>
    have hunf : argmaxIdx (x :: t) = argmaxAux t 1 0 x := rfl
    rw [hunf]
    rcases argmaxAux_spec t 1 0 x with ⟨heq, hle⟩ | ⟨k, hk, heq, hlt, hmax, hfirst⟩
    · rw [heq]
      refine ⟨by simp, ?_, ?_⟩
      · intro m hm
        cases m with
        | zero => simp
        | succ m' =>
          simp only [List.getD_cons_succ, List.getD_cons_zero]
          exact hle m' (by simpa using hm)
      · intro m hm; exact absurd hm (Nat.not_lt_zero m)
    · rw [heq]
      have hidx : 1 + k = k + 1 := by omega
      rw [hidx]
      refine ⟨by simpa using hk, ?_, ?_⟩
      · intro m hm
        cases m with
        | zero =>
          simp only [List.getD_cons_zero, List.getD_cons_succ]
          exact le_of_lt hlt
        | succ m' =>
          simp only [List.getD_cons_succ]
          exact hmax m' (by simpa using hm)
      · intro m hm
        cases m with
        | zero =>
          simp only [List.getD_cons_zero, List.getD_cons_succ]
          exact hlt
        | succ m' =>
          simp only [List.getD_cons_succ]
          exact hfirst m' (by omega)

/-- Claim C4: the exploration flag starts false and is never reset; once it
is true, `sample` deterministically returns each aspect's first
maximum-probability index (regardless of the injected random draws), and
`update_policy` only appends to the traces, leaving `z`, `theta`, `store`
and the flag itself unchanged. -/
theorem exploration_freeze :
    (∀ sizes : List ℕ, (initPolicy sizes).stopExploration = false) ∧
    (∀ (cfg : FedExCfg) (fb : List Feedback) (s : FedExState) (draws : List ℕ),
      s.stopExploration = true →
      sampleIdx s draws = s.theta.map argmaxIdx ∧
      (∀ th ∈ s.theta, th ≠ [] →
        argmaxIdx th < th.length ∧
        (∀ k < th.length, th.getD k 0 ≤ th.getD (argmaxIdx th) 0) ∧
        (∀ k < argmaxIdx th, th.getD k 0 < th.getD (argmaxIdx th) 0)) ∧
      updatePolicy cfg fb s = .ok { s with
        traceGlobal := s.traceGlobal ++ [roundVal fb]
        traceRefine := s.traceRefine ++ [roundVal fb]
        traceEntropy := s.traceEntropy ++ [0]
        traceMle := s.traceMle ++ [1] }) := by
  refine ⟨fun _ => rfl, fun cfg fb s draws hstop => ⟨?_, ?_, ?_⟩⟩
  · rw [sampleIdx, hstop]
    rfl
  · intro th _ hne
    exact argmaxIdx_spec th hne
  · exact updatePolicy_stopped cfg fb s hstop

theorem exploration_freeze_witness :
    sampleIdx ⟨[[0]], [[1]], [0], [0], [], [], [0], [1], true⟩ [0] = [0] ∧
    updatePolicy ⟨false, 1, "constant", -1⟩ [⟨1, [0], 2⟩]
        ⟨[[0]], [[1]], [0], [0], [], [], [0], [1], true⟩ =
      .ok ⟨[[0]], [[1]], [0], [0], [2], [2], [0, 0], [1, 1], true⟩ := by
  obtain ⟨hs, _, hu⟩ := exploration_freeze.2 ⟨false, 1, "constant", -1⟩ [⟨1, [0], 2⟩]
    ⟨[[0]], [[1]], [0], [0], [], [], [0], [1], true⟩ [0] rfl
  constructor
  · rw [hs]
    norm_num [argmaxIdx, argmaxAux]
  · rw [hu]
    norm_num [roundVal, innerProd, weightsOf]

lemma schedStep_unknown (cfg : FedExCfg) (e0 st b : ℝ)
    (items : List (List ℕ × ℝ × ℝ)) (i : ℕ) (z th : List ℝ)
    (h1 : cfg.sched ≠ "adaptive") (h2 : cfg.sched ≠ "aggressive")
    (h3 : cfg.sched ≠ "auto") (h4 : cfg.sched ≠ "constant")
    (h5 : cfg.sched ≠ "scale") :
    schedStep cfg e0 st b items i z th = .error .notImplementedError := by
  unfold schedStep
  rw [if_neg h1, if_neg h2, if_neg h3, if_neg h4, if_neg h5]

lemma stepAspects_cons_err (cfg : FedExCfg) (b : ℝ) (items : List (List ℕ × ℝ × ℝ))
    (i : ℕ) (z th : List ℝ) (zr thr : List (List ℝ)) (sts e0s : List ℝ) (e : PyErr)
    (h : schedStep cfg (e0s.getD i 0) (sts.getD i 0) b items i z th = .error e) :
    stepAspects cfg b items i (z :: zr) (th :: thr) sts e0s
      = .error (e, z :: zr, th :: thr, sts) := by
  simp only [stepAspects]
  rw [h]

/-- Claim C7 (amended): when exploration has not stopped and there is at
least one aspect, a schedule name outside
adaptive/aggressive/auto/constant/scale makes `update_policy` raise
`NotImplementedError`, with `z`, `theta`, `store`, `eta0` and the
exploration flag untouched (only the global/refine traces have been
appended before the raise). -/
theorem unknown_sched_raises (cfg : FedExCfg) (fb : List Feedback) (s : FedExState)
    (h1 : cfg.sched ≠ "adaptive") (h2 : cfg.sched ≠ "aggressive")
    (h3 : cfg.sched ≠ "auto") (h4 : cfg.sched ≠ "constant")
    (h5 : cfg.sched ≠ "scale")
    (hstop : s.stopExploration = false)
    (hz : s.z ≠ []) (hth : s.theta ≠ []) :
    updatePolicy cfg fb s = .error (.notImplementedError, { s with
      traceGlobal := s.traceGlobal ++ [roundVal fb]
      traceRefine := s.traceRefine ++ [roundVal fb] }) := by
  match hzz : s.z, hzt : s.theta, hz, hth with
  | z :: zr, th :: thr, _, _ =>
    have hsa := stepAspects_cons_err cfg (baselineOf cfg s) (itemsOf cfg fb) 0
      z th zr thr s.store s.eta0 .notImplementedError
      (schedStep_unknown cfg _ _ _ _ _ _ _ h1 h2 h3 h4 h5)
    rw [← hzz, ← hzt] at hsa
    have := updatePolicy_err_of cfg fb s .notImplementedError s.z s.theta s.store hstop hsa
    rw [this, hzz, hzt]

theorem unknown_sched_raises_witness :
    updatePolicy ⟨false, 1, "bogus", 0⟩ [⟨1, [0], 2⟩] (initPolicy [1]) =
      .error (.notImplementedError, ⟨[[0]], [[1]], [0], [0], [2], [2], [0], [1], false⟩) := by
  have h := unknown_sched_raises ⟨false, 1, "bogus", 0⟩ [⟨1, [0], 2⟩] (initPolicy [1])
    (by decide) (by decide) (by decide) (by decide) (by decide)
    (by rw [initPolicy_one]) (by rw [initPolicy_one]; simp) (by rw [initPolicy_one]; simp)
  rw [h, initPolicy_one]
  norm_num [roundVal, innerProd, weightsOf]

/-- Claim C7 counterexample: with exploration already stopped, a bogus
schedule name does not raise — `update_policy` returns normally (the early
frozen-policy return precedes the schedule check), so the claim as stated
(every call with an unknown schedule raises) is false. -/
theorem unknown_sched_stopped_no_raise :
    ("bogus" : String) ∉ (["adaptive", "aggressive", "auto", "constant", "scale"] : List String) ∧
    updatePolicy ⟨false, 1, "bogus", 0⟩ [⟨1, [0], 2⟩]
        ⟨[[0]], [[1]], [0], [0], [], [], [0], [1], true⟩ =
      .ok ⟨[[0]], [[1]], [0], [0], [2], [2], [0, 0], [1, 1], true⟩ := by
  refine ⟨by decide, ?_⟩
  rw [updatePolicy_stopped _ _ _ rfl]
  norm_num [roundVal, innerProd, weightsOf]

lemma initPolicy_two : initPolicy [2] =
    ⟨[[-Real.log 2, -Real.log 2]], [[(2 : ℝ)⁻¹, 2⁻¹]], [0], [Real.sqrt (2 * Real.log 2)],
      [], [], [Real.log 2], [(2 : ℝ)⁻¹], false⟩ := by
  norm_num [initPolicy, entropy, jointProbs, posPart, List.filter_cons, List.sections,
    mle, listMax, List.replicate, Real.exp_neg, Real.exp_log, Real.log_inv]
  rw [show (1 : ℝ) / 2 = 2⁻¹ from by norm_num, Real.log_inv]
  ring

/-- Claim C3 (code bug): the `adaptive` schedule evaluates `norm(grad, inf)`
but `norm` is never imported in `server.py`, so the update raises
`NameError: name 'norm' is not defined`; the gradient-norm accumulator
(`store`) is never incremented (it is still `[0]` in the carried state). -/
theorem adaptive_sched_name_error :
    updatePolicy ⟨false, 1, "adaptive", -1⟩ [⟨1, [0], 1⟩] (initPolicy [2]) =
      .error (.nameError "norm",
        ⟨[[-Real.log 2, -Real.log 2]], [[(2 : ℝ)⁻¹, 2⁻¹]], [0], [Real.sqrt (2 * Real.log 2)],
          [1], [1], [Real.log 2], [(2 : ℝ)⁻¹], false⟩) := by
  have hstep : schedStep ⟨false, 1, "adaptive", -1⟩
      (((initPolicy [2]).eta0).getD 0 0) (((initPolicy [2]).store).getD 0 0)
      (baselineOf ⟨false, 1, "adaptive", -1⟩ (initPolicy [2]))
      (itemsOf ⟨false, 1, "adaptive", -1⟩ [⟨1, [0], 1⟩]) 0
      [-Real.log 2, -Real.log 2] [(2 : ℝ)⁻¹, 2⁻¹] = .error (.nameError "norm") := by
    simp [schedStep]
  have hsa := stepAspects_cons_err ⟨false, 1, "adaptive", -1⟩
    (baselineOf ⟨false, 1, "adaptive", -1⟩ (initPolicy [2]))
    (itemsOf ⟨false, 1, "adaptive", -1⟩ [⟨1, [0], 1⟩]) 0
    [-Real.log 2, -Real.log 2] [(2 : ℝ)⁻¹, 2⁻¹] [] []
    (initPolicy [2]).store (initPolicy [2]).eta0 (.nameError "norm") hstep
  have hz2 : (initPolicy [2]).z = [[-Real.log 2, -Real.log 2]] := by rw [initPolicy_two]
  have hth2 : (initPolicy [2]).theta = [[(2 : ℝ)⁻¹, 2⁻¹]] := by rw [initPolicy_two]
  rw [← hz2, ← hth2] at hsa
  have herr := updatePolicy_err_of ⟨false, 1, "adaptive", -1⟩ [⟨1, [0], 1⟩] (initPolicy [2])
    (.nameError "norm") (initPolicy [2]).z (initPolicy [2]).theta (initPolicy [2]).store
    (by rw [initPolicy_two]) hsa
  rw [herr, initPolicy_two]
  norm_num [roundVal, innerProd, weightsOf]

lemma updatePolicy_single_aspect (cfg : FedExCfg) (fb : List Feedback) (s : FedExState)
    (z th z2 th2 : List ℝ) (st2 : ℝ)
    (hstop : s.stopExploration = false)
    (hz : s.z = [z]) (hth : s.theta = [th])
    (hstep : schedStep cfg (s.eta0.getD 0 0) (s.store.getD 0 0) (baselineOf cfg s)
      (itemsOf cfg fb) 0 z th = .ok (z2, th2, st2)) :
    updatePolicy cfg fb s = .ok { s with
      z := [z2], theta := [th2], store := s.store.set 0 st2
      traceGlobal := s.traceGlobal ++ [roundVal fb]
      traceRefine := s.traceRefine ++ [roundVal fb]
      traceEntropy := s.traceEntropy ++ [entropy [th2]]
      traceMle := s.traceMle ++ [mle [th2]]
      stopExploration := if entropy [th2] < cfg.cutoff then true else false } := by
  have hsa := stepAspects_one cfg (baselineOf cfg s) (itemsOf cfg fb) z th
    s.store s.eta0 z2 th2 st2 hstep
  conv at hsa => lhs; rw [← hz, ← hth]
  exact updatePolicy_ok_of cfg fb s [z2] [th2] (s.store.set 0 st2) hstop hsa

/-- Claim C1 (code bug): `update_policy` reads `before` and `after` from the
same tuple element, so with the difference option configured the per-tuple
signal is identically 0 — here two tuples with very different losses (0 and
5) on arm 0 leave the probability vector exactly uniform, i.e. the losses
contribute nothing to the gradient. -/
theorem diff_signal_ignores_losses :
    signals true [(0 : ℝ), 5] [(0 : ℝ), 5] = [0, 0] ∧
    updatePolicy ⟨true, 1, "constant", -1⟩ [⟨1, [0], 0⟩, ⟨1, [0], 5⟩] (initPolicy [2]) =
      .ok ⟨[[-Real.log 2, -Real.log 2]], [[(2 : ℝ)⁻¹, 2⁻¹]], [0], [Real.sqrt (2 * Real.log 2)],
        [5 / 2], [5 / 2], [Real.log 2, Real.log 2], [(2 : ℝ)⁻¹, 2⁻¹], false⟩ := by
  have hlog2 : (0 : ℝ) ≤ Real.log 2 := Real.log_nonneg (by norm_num)
  constructor
  · norm_num [signals]
  · have hb : baselineOf ⟨true, 1, "constant", -1⟩ (initPolicy [2]) = 0 := by
      rw [baselineOf,
        if_pos (show (initPolicy [2]).traceRefine = [] from by rw [initPolicy_two])]
    have hitems : itemsOf ⟨true, 1, "constant", -1⟩ [⟨1, [0], 0⟩, ⟨1, [0], 5⟩]
        = [([0], (0 : ℝ), (2 : ℝ)⁻¹), ([0], 0, 2⁻¹)] := by
      norm_num [itemsOf, signals, weightsOf]
    have happ : ∀ eta : ℝ,
        applyStep [-Real.log 2, -Real.log 2] (List.replicate 2 (0 : ℝ)) eta
          = [-Real.log 2, -Real.log 2] := by
      intro eta
      norm_num [applyStep, List.replicate, logsumexp, Real.exp_neg, Real.exp_log]
    have hgrad : gradOf [(2 : ℝ)⁻¹, 2⁻¹] 0 [([0], (0 : ℝ), (2 : ℝ)⁻¹), ([0], 0, 2⁻¹)] 0
        ([-Real.log 2, -Real.log 2] : List ℝ).length = List.replicate 2 0 := by
      norm_num [gradOf, List.replicate]
    have hstep : schedStep ⟨true, 1, "constant", -1⟩
        ((initPolicy [2]).eta0.getD 0 0) ((initPolicy [2]).store.getD 0 0)
        (baselineOf ⟨true, 1, "constant", -1⟩ (initPolicy [2]))
        (itemsOf ⟨true, 1, "constant", -1⟩ [⟨1, [0], 0⟩, ⟨1, [0], 5⟩]) 0
        [-Real.log 2, -Real.log 2] [(2 : ℝ)⁻¹, 2⁻¹] =
        .ok ([-Real.log 2, -Real.log 2], [(2 : ℝ)⁻¹, 2⁻¹], 0) := by
      rw [hb, hitems, show (initPolicy [2]).store.getD 0 0 = 0 from by rw [initPolicy_two]; rfl]
      simp only [schedStep, String.reduceEq, reduceIte]
      rw [hgrad, happ]
      norm_num [Real.exp_neg, Real.exp_log]
    have hres := updatePolicy_single_aspect ⟨true, 1, "constant", -1⟩
      [⟨1, [0], 0⟩, ⟨1, [0], 5⟩] (initPolicy [2])
      [-Real.log 2, -Real.log 2] [(2 : ℝ)⁻¹, 2⁻¹]
      [-Real.log 2, -Real.log 2] [(2 : ℝ)⁻¹, 2⁻¹] 0
      (by rw [initPolicy_two]) (by rw [initPolicy_two]) (by rw [initPolicy_two]) hstep
    have hent : entropy [[(2 : ℝ)⁻¹, 2⁻¹]] = Real.log 2 := by
      norm_num [entropy, jointProbs, posPart, List.filter_cons, List.sections, Real.log_inv]
      rw [show (1 : ℝ) / 2 = 2⁻¹ from by norm_num, Real.log_inv]
      ring
    have hmle : mle [[(2 : ℝ)⁻¹, 2⁻¹]] = 2⁻¹ := by
      norm_num [mle, listMax]
    rw [hres, initPolicy_two]
    rw [show (if entropy [[(2 : ℝ)⁻¹, 2⁻¹]]
          < (FedExCfg.mk true 1 "constant" (-1)).cutoff then true else false) = false from by
      rw [hent]
      rw [if_neg (show ¬ Real.log 2 < (FedExCfg.mk true 1 "constant" (-1)).cutoff from by
        intro hcon
        have hcon2 : Real.log 2 < -1 := hcon
        linarith)]]
    norm_num [hent, hmle, roundVal, innerProd, weightsOf]
    exact ⟨by rw [show (1 : ℝ) / 2 = 2⁻¹ from by norm_num]; exact hent,
      by rw [show (1 : ℝ) / 2 = 2⁻¹ from by norm_num]; exact hmle⟩

/-- Claim C5 counterexample: with the flatten option disabled, construction
does not succeed — the decomposition branch of `__init__` is a bare
`pass`, so reading `self._cfsp` raises `AttributeError`. -/
theorem flatten_disabled_fails_example :
    initServer false 5 = .error (.attributeError "_cfsp") := rfl

/-- Claim C5 (amended): with the flatten option disabled the cross-product
decomposition is unimplemented (a TODO `pass`) and construction always
fails with an `AttributeError` on the never-assigned `_cfsp`; with
flattening enabled construction succeeds with exactly one aspect. -/
theorem flatten_disabled_fails (n : ℕ) :
    initServer false n = .error (.attributeError "_cfsp") ∧
    initServer true n = .ok (initPolicy [n]) :=
  ⟨rfl, rfl⟩

lemma initPolicy_three : initPolicy [3] =
    ⟨[[-Real.log 3, -Real.log 3, -Real.log 3]], [[(3 : ℝ)⁻¹, 3⁻¹, 3⁻¹]], [0],
      [Real.sqrt (2 * Real.log 3)], [], [], [Real.log 3], [(3 : ℝ)⁻¹], false⟩ := by
  norm_num [initPolicy, entropy, jointProbs, posPart, List.filter_cons, List.sections,
    mle, listMax, List.replicate, Real.exp_neg, Real.exp_log, Real.log_inv]
  rw [show (1 : ℝ) / 3 = 3⁻¹ from by norm_num, Real.log_inv]
  ring

/-- Claim C6 (Scenario A): from a single three-arm aspect at the uniform
distribution, one constant-schedule update with equal-weight feedback where
arm 0 observes a strictly lower loss than arms 1 and 2 (which observe equal
losses) succeeds, and the resulting probabilities satisfy
`prob 0 > prob 1 = prob 2`. -/
theorem scenario_a (c l0 l1 l2 : ℝ) (hc : 0 < c) (h01 : l0 < l1) (h21 : l2 = l1) :
    updatePolicy ⟨false, 1, "constant", 0⟩ [⟨c, [0], l0⟩, ⟨c, [1], l1⟩, ⟨c, [2], l2⟩]
        (initPolicy [3]) = .ok { initPolicy [3] with
      z := [scenarioA_z l0 l1 l2]
      theta := [(scenarioA_z l0 l1 l2).map Real.exp]
      store := (initPolicy [3]).store.set 0 0
      traceGlobal := (initPolicy [3]).traceGlobal
        ++ [roundVal [⟨c, [0], l0⟩, ⟨c, [1], l1⟩, ⟨c, [2], l2⟩]]
      traceRefine := (initPolicy [3]).traceRefine
        ++ [roundVal [⟨c, [0], l0⟩, ⟨c, [1], l1⟩, ⟨c, [2], l2⟩]]
      traceEntropy := (initPolicy [3]).traceEntropy
        ++ [entropy [(scenarioA_z l0 l1 l2).map Real.exp]]
      traceMle := (initPolicy [3]).traceMle ++ [mle [(scenarioA_z l0 l1 l2).map Real.exp]]
      stopExploration :=
        if entropy [(scenarioA_z l0 l1 l2).map Real.exp] < 0 then true else false } ∧
    ((scenarioA_z l0 l1 l2).map Real.exp).getD 1 0
      < ((scenarioA_z l0 l1 l2).map Real.exp).getD 0 0 ∧
    ((scenarioA_z l0 l1 l2).map Real.exp).getD 1 0
      = ((scenarioA_z l0 l1 l2).map Real.exp).getD 2 0 := by
  have hb : baselineOf ⟨false, 1, "constant", 0⟩ (initPolicy [3]) = 0 := by
    rw [baselineOf,
      if_pos (show (initPolicy [3]).traceRefine = [] from by rw [initPolicy_three])]
  have hcc : c / (c + (c + c)) = 3⁻¹ := by
    rw [show c + (c + c) = 3 * c from by ring]
    rw [div_eq_iff (by positivity : (3 : ℝ) * c ≠ 0)]
    ring
  have hw : weightsOf [⟨c, [0], l0⟩, ⟨c, [1], l1⟩, ⟨c, [2], l2⟩] = [3⁻¹, 3⁻¹, 3⁻¹] := by
    simp [weightsOf, hcc]
  have hitems : itemsOf ⟨false, 1, "constant", 0⟩ [⟨c, [0], l0⟩, ⟨c, [1], l1⟩, ⟨c, [2], l2⟩]
      = [([0], l0, (3 : ℝ)⁻¹), ([1], l1, 3⁻¹), ([2], l2, 3⁻¹)] := by
    simp [itemsOf, signals, hw]
  have hgrad : gradOf [(3 : ℝ)⁻¹, 3⁻¹, 3⁻¹] 0
      [([0], l0, (3 : ℝ)⁻¹), ([1], l1, 3⁻¹), ([2], l2, 3⁻¹)] 0
      ([-Real.log 3, -Real.log 3, -Real.log 3] : List ℝ).length = [l0, l1, l2] := by
    norm_num [gradOf]
    rfl
  have hstep : schedStep ⟨false, 1, "constant", 0⟩
      ((initPolicy [3]).eta0.getD 0 0) ((initPolicy [3]).store.getD 0 0)
      (baselineOf ⟨false, 1, "constant", 0⟩ (initPolicy [3]))
      (itemsOf ⟨false, 1, "constant", 0⟩ [⟨c, [0], l0⟩, ⟨c, [1], l1⟩, ⟨c, [2], l2⟩]) 0
      [-Real.log 3, -Real.log 3, -Real.log 3] [(3 : ℝ)⁻¹, 3⁻¹, 3⁻¹] =
      .ok (scenarioA_z l0 l1 l2, (scenarioA_z l0 l1 l2).map Real.exp, 0) := by
    rw [hb, hitems,
      show (initPolicy [3]).store.getD 0 0 = 0 from by rw [initPolicy_three]; rfl,
      show (initPolicy [3]).eta0.getD 0 0 = Real.sqrt (2 * Real.log 3) from by
        rw [initPolicy_three]; rfl]
    simp only [schedStep, String.reduceEq, reduceIte]
    rw [hgrad]
    rfl
  have hres := updatePolicy_single_aspect ⟨false, 1, "constant", 0⟩
    [⟨c, [0], l0⟩, ⟨c, [1], l1⟩, ⟨c, [2], l2⟩] (initPolicy [3])
    [-Real.log 3, -Real.log 3, -Real.log 3] [(3 : ℝ)⁻¹, 3⁻¹, 3⁻¹]
    (scenarioA_z l0 l1 l2) ((scenarioA_z l0 l1 l2).map Real.exp) 0
    (by rw [initPolicy_three]) (by rw [initPolicy_three]) (by rw [initPolicy_three]) hstep
  have heta : (0 : ℝ) < Real.sqrt (2 * Real.log 3) := by
    apply Real.sqrt_pos.mpr
    have : (0 : ℝ) < Real.log 3 := Real.log_pos (by norm_num)
    linarith
  have happ : scenarioA_z l0 l1 l2 =
      [-Real.log 3 - Real.sqrt (2 * Real.log 3) * l0 -
          logsumexp ((([-Real.log 3, -Real.log 3, -Real.log 3] : List ℝ).zip
            [l0, l1, l2]).map fun p => p.1 - Real.sqrt (2 * Real.log 3) * p.2),
        -Real.log 3 - Real.sqrt (2 * Real.log 3) * l1 -
          logsumexp ((([-Real.log 3, -Real.log 3, -Real.log 3] : List ℝ).zip
            [l0, l1, l2]).map fun p => p.1 - Real.sqrt (2 * Real.log 3) * p.2),
        -Real.log 3 - Real.sqrt (2 * Real.log 3) * l2 -
          logsumexp ((([-Real.log 3, -Real.log 3, -Real.log 3] : List ℝ).zip
            [l0, l1, l2]).map fun p => p.1 - Real.sqrt (2 * Real.log 3) * p.2)] := by
    simp [scenarioA_z, applyStep, sub_sub]
  refine ⟨hres, ?_, ?_⟩
  · rw [happ]
    simp only [List.map_cons, List.getD_cons_succ, List.getD_cons_zero]
    apply Real.exp_lt_exp.mpr
    have hml : Real.sqrt (2 * Real.log 3) * l0 < Real.sqrt (2 * Real.log 3) * l1 :=
      mul_lt_mul_of_pos_left h01 heta
    linarith
  · rw [happ]
    simp only [List.map_cons, List.getD_cons_succ, List.getD_cons_zero]
    rw [h21]

theorem scenario_a_witness :
    updatePolicy ⟨false, 1, "constant", 0⟩ [⟨1, [0], 0⟩, ⟨1, [1], 1⟩, ⟨1, [2], 1⟩]
        (initPolicy [3]) = .ok { initPolicy [3] with
      z := [scenarioA_z 0 1 1]
      theta := [(scenarioA_z 0 1 1).map Real.exp]
      store := (initPolicy [3]).store.set 0 0
      traceGlobal := (initPolicy [3]).traceGlobal
        ++ [roundVal [⟨1, [0], 0⟩, ⟨1, [1], 1⟩, ⟨1, [2], 1⟩]]
      traceRefine := (initPolicy [3]).traceRefine
        ++ [roundVal [⟨1, [0], 0⟩, ⟨1, [1], 1⟩, ⟨1, [2], 1⟩]]
      traceEntropy := (initPolicy [3]).traceEntropy
        ++ [entropy [(scenarioA_z 0 1 1).map Real.exp]]
      traceMle := (initPolicy [3]).traceMle ++ [mle [(scenarioA_z 0 1 1).map Real.exp]]
      stopExploration :=
        if entropy [(scenarioA_z 0 1 1).map Real.exp] < 0 then true else false } ∧
    ((scenarioA_z 0 1 1).map Real.exp).getD 1 0
      < ((scenarioA_z 0 1 1).map Real.exp).getD 0 0 ∧
    ((scenarioA_z 0 1 1).map Real.exp).getD 1 0
      = ((scenarioA_z 0 1 1).map Real.exp).getD 2 0 :=
  scenario_a 1 0 1 1 (by norm_num) (by norm_num) rfl

lemma mem_posPart {l : List ℝ} {x : ℝ} : x ∈ posPart l ↔ x ∈ l ∧ 0 < x := by
  simp [posPart, List.mem_filter]

lemma posPart_ne_nil {l : List ℝ} (hnn : ∀ x ∈ l, 0 ≤ x) (hs : l.sum = 1) :
    posPart l ≠ [] := by
  intro hnil
  have hall : ∀ x ∈ l, x = 0 := by
    intro x hx
    rcases lt_or_eq_of_le (hnn x hx) with hlt | heq
    · exact absurd (mem_posPart.mpr ⟨hx, hlt⟩) (by rw [hnil]; simp)
    · exact heq.symm
  rw [List.sum_eq_zero hall] at hs
  norm_num at hs

lemma forall₂_mem_of_mem {α β : Type*} {R : α → β → Prop} :
    ∀ {c : List α} {L : List β}, List.Forall₂ R c L → ∀ x ∈ c, ∃ l ∈ L, R x l := by
  intro c L h
  induction h with
  | nil => intro x hx; simp at hx
  | cons hab _ ih =>
    intro x hx
    rcases List.mem_cons.mp hx with rfl | hx
    · exact ⟨_, List.mem_cons_self .., hab⟩
    · obtain ⟨l, hl, hr⟩ := ih x hx
      exact ⟨l, List.mem_cons_of_mem _ hl, hr⟩

lemma section_entry_bounds {ths : List (List ℝ)}
    (h : ∀ l ∈ ths, (∀ x ∈ l, 0 ≤ x) ∧ l.sum = 1)
    {c : List ℝ} (hc : c ∈ jointProbs ths) : ∀ x ∈ c, 0 < x ∧ x ≤ 1 := by
  intro x hx
  have hf : List.Forall₂ (· ∈ ·) c (ths.map posPart) := List.mem_sections.mp hc
  obtain ⟨l', hl', hxl'⟩ := forall₂_mem_of_mem hf x hx
  obtain ⟨t, ht, rfl⟩ := List.mem_map.mp hl'
  obtain ⟨hxt, hxpos⟩ := mem_posPart.mp hxl'
  refine ⟨hxpos, ?_⟩
  have := List.single_le_sum (h t ht).1 x hxt
  rw [(h t ht).2] at this
  exact this

lemma prod_bounds_of_bounds : ∀ {c : List ℝ}, (∀ x ∈ c, 0 ≤ x ∧ x ≤ 1) →
    0 ≤ c.prod ∧ c.prod ≤ 1 := by
  intro c
  induction c with
  | nil => intro _; norm_num
  | cons a t ih =>
    intro h
    have ha := h a (List.mem_cons_self ..)
    have ht := ih fun x hx => h x (List.mem_cons_of_mem _ hx)
    rw [List.prod_cons]
    exact ⟨mul_nonneg ha.1 ht.1, mul_le_one₀ ha.2 ht.1 ht.2⟩

lemma all_eq_one_of_prod_eq_one : ∀ {c : List ℝ}, (∀ x ∈ c, 0 ≤ x ∧ x ≤ 1) →
    c.prod = 1 → ∀ x ∈ c, x = 1 := by
  intro c
  induction c with
  | nil => intro _ _ x hx; simp at hx
  | cons a t ih =>
    intro h hp x hx
    have ha := h a (List.mem_cons_self ..)
    have htb := prod_bounds_of_bounds fun y hy => h y (List.mem_cons_of_mem _ hy)
    rw [List.prod_cons] at hp
    have ha1 : a = 1 := by nlinarith [ha.1, ha.2, htb.1, htb.2]
    have ht1 : t.prod = 1 := by nlinarith [ha.1, ha.2, htb.1, htb.2]
    rcases List.mem_cons.mp hx with rfl | hx
    · exact ha1
    · exact ih (fun y hy => h y (List.mem_cons_of_mem _ hy)) ht1 x hx

lemma entropy_term_nonneg {p : ℝ} (h0 : 0 < p) (h1 : p ≤ 1) :
    0 ≤ -(p * Real.log p) := by
  have := Real.log_nonpos (le_of_lt h0) h1
  nlinarith

lemma entropy_nonneg {ths : List (List ℝ)}
    (h : ∀ l ∈ ths, (∀ x ∈ l, 0 ≤ x) ∧ l.sum = 1) : 0 ≤ entropy ths := by
  apply List.sum_nonneg
  intro y hy
  obtain ⟨c, hc, rfl⟩ := List.mem_map.mp hy
  have hb := prod_bounds_of_bounds fun x hx =>
    ⟨le_of_lt (section_entry_bounds h hc x hx).1, (section_entry_bounds h hc x hx).2⟩
  have hpos : 0 < c.prod := List.prod_pos fun x hx => (section_entry_bounds h hc x hx).1
  exact entropy_term_nonneg hpos hb.2

lemma prod_one_of_entropy_zero {ths : List (List ℝ)}
    (h : ∀ l ∈ ths, (∀ x ∈ l, 0 ≤ x) ∧ l.sum = 1) (hent : entropy ths = 0) :
    ∀ c ∈ jointProbs ths, c.prod = 1 := by
  intro c hc
  rw [entropy] at hent
  have hmem : -(c.prod * Real.log c.prod)
      ∈ (jointProbs ths).map (fun c => -(c.prod * Real.log c.prod)) :=
    List.mem_map.mpr ⟨c, hc, rfl⟩
  have hterm : -(c.prod * Real.log c.prod) = 0 := by
    refine List.all_zero_of_le_zero_le_of_sum_eq_zero ?_ hent hmem
    intro y hy
    obtain ⟨d, hd, rfl⟩ := List.mem_map.mp hy
    have hpos : 0 < d.prod := List.prod_pos fun x hx => (section_entry_bounds h hd x hx).1
    have hb := prod_bounds_of_bounds fun x hx =>
      ⟨le_of_lt (section_entry_bounds h hd x hx).1, (section_entry_bounds h hd x hx).2⟩
    exact entropy_term_nonneg hpos hb.2
  have hpos : 0 < c.prod := List.prod_pos fun x hx => (section_entry_bounds h hc x hx).1
  have hlog : c.prod * Real.log c.prod = 0 := by linarith
  rcases mul_eq_zero.mp hlog with hz | hz
  · exact absurd hz (ne_of_gt hpos)
  · rcases Real.log_eq_zero.mp hz with h0 | h1 | hm
    · exact absurd h0 (ne_of_gt hpos)
    · exact h1
    · exact absurd hm (by intro hcon; rw [hcon] at hpos; norm_num at hpos)

lemma sections_exists_mem : ∀ {L : List (List ℝ)}, (∀ l ∈ L, l ≠ []) →
    ∃ c, c ∈ L.sections := by
  intro L
  induction L with
  | nil => intro _; exact ⟨[], by simp [List.sections]⟩
  | cons l L ih =>
    intro h
    obtain ⟨c, hc⟩ := ih fun t ht => h t (List.mem_cons_of_mem _ ht)
    obtain ⟨a, ha⟩ := List.exists_mem_of_ne_nil l (h l (List.mem_cons_self ..))
    exact ⟨a :: c, List.mem_sections.mpr
      (List.Forall₂.cons ha (List.mem_sections.mp hc))⟩

lemma entropy_cons_of_posPart_one (l : List ℝ) (ths : List (List ℝ))
    (hl : posPart l = [1]) : entropy (l :: ths) = entropy ths := by
  have key : ∀ (R : List (List ℝ)),
      ((R.flatMap fun s => [(1 : ℝ) :: s]).map fun c => -(c.prod * Real.log c.prod)).sum
        = (R.map fun c => -(c.prod * Real.log c.prod)).sum := by
    intro R
    induction R with
    | nil => rfl
    | cons s R ih =>
      simp only [List.flatMap_cons, List.map_append, List.sum_append, ih,
        List.map_cons, List.map_nil, List.sum_cons, List.sum_nil, List.prod_cons, one_mul]
      ring
  rw [entropy, entropy, jointProbs, jointProbs, List.map_cons, hl]
  rw [show List.sections ([(1 : ℝ)] :: List.map posPart ths)
      = ((List.map posPart ths).sections).flatMap (fun s => [(1 : ℝ)].map fun a => a :: s)
      from rfl]
  simp only [List.map_cons, List.map_nil]
  exact key _

lemma all_zero_of_sum_zero {t : List ℝ} (hnn : ∀ x ∈ t, 0 ≤ x) (hs : t.sum = 0) :
    ∀ x ∈ t, x = 0 :=
  fun _ hx => List.all_zero_of_le_zero_le_of_sum_eq_zero hnn hs hx

lemma posPart_of_peak : ∀ (l : List ℝ) (i : ℕ), (∀ x ∈ l, 0 ≤ x) → l.sum = 1 →
    i < l.length → l.getD i 0 = 1 → posPart l = [1] := by
  intro l
  induction l with
  | nil => intro i _ _ hi _; simp at hi
  | cons a t ih =>
    intro i hnn hs hi hget
    cases i with
    | zero =>
      simp only [List.getD_cons_zero] at hget
      subst hget
      rw [List.sum_cons] at hs
      have hts : t.sum = 0 := by linarith
      have htz : ∀ x ∈ t, x = 0 :=
        all_zero_of_sum_zero (fun x hx => hnn x (List.mem_cons_of_mem _ hx)) hts
      rw [posPart, List.filter_cons]
      norm_num
      intro x hx
      exact le_of_eq (htz x hx)
    | succ j =>
      simp only [List.getD_cons_succ] at hget
      have hj : j < t.length := by simpa using hi
      have hmem : (1 : ℝ) ∈ t := by
        rw [← hget, List.getD_eq_getElem t 0 hj]
        exact List.getElem_mem hj
      have htnn : ∀ x ∈ t, 0 ≤ x := fun x hx => hnn x (List.mem_cons_of_mem _ hx)
      have h1le : (1 : ℝ) ≤ t.sum := List.single_le_sum htnn 1 hmem
      have ha0 : 0 ≤ a := hnn a (List.mem_cons_self ..)
      rw [List.sum_cons] at hs
      have hts : t.sum = 1 := by linarith
      have haz : a = 0 := by linarith
      subst haz
      rw [posPart, List.filter_cons]
      norm_num
      exact ih j htnn hts hj hget

lemma mul_eq_one_of_unit {a b : ℝ} (ha : 0 ≤ a) (ha1 : a ≤ 1) (hb : 0 ≤ b) (hb1 : b ≤ 1)
    (hab : a * b = 1) : a = 1 ∧ b = 1 := by
  constructor <;> nlinarith

lemma entropy_zero_gives_idxs : ∀ (ths : List (List ℝ)),
    (∀ l ∈ ths, (∀ x ∈ l, 0 ≤ x) ∧ l.sum = 1) → entropy ths = 0 →
    ∃ idxs : List ℕ, List.Forall₂ (fun (l : List ℝ) (i : ℕ) => i < l.length) ths idxs ∧
      ((ths.zip idxs).map fun p => p.1.getD p.2 0).prod = 1 := by
  intro ths
  induction ths with
  | nil =>
    intro _ _
    exact ⟨[], List.Forall₂.nil, by simp⟩
  | cons l ts ih =>
    intro h hent
    have hl := h l (List.mem_cons_self ..)
    have hts : ∀ t ∈ ts, (∀ x ∈ t, 0 ≤ x) ∧ t.sum = 1 :=
      fun t ht => h t (List.mem_cons_of_mem _ ht)
    have hppne : ∀ t ∈ ts, posPart t ≠ [] :=
      fun t ht => posPart_ne_nil (hts t ht).1 (hts t ht).2
    obtain ⟨s0, hs0⟩ := sections_exists_mem
      (show ∀ t' ∈ ts.map posPart, t' ≠ [] from by
        intro t' ht'
        obtain ⟨t, ht, rfl⟩ := List.mem_map.mp ht'
        exact hppne t ht)
    obtain ⟨x0, hx0⟩ := List.exists_mem_of_ne_nil (posPart l)
      (posPart_ne_nil hl.1 hl.2)
    have hprod1 := prod_one_of_entropy_zero h hent
    have hmemjoint : ∀ x ∈ posPart l, ∀ s ∈ (ts.map posPart).sections,
        (x :: s) ∈ jointProbs (l :: ts) := by
      intro x hx s hs
      rw [jointProbs, List.map_cons]
      exact List.mem_sections.mpr (List.Forall₂.cons hx (List.mem_sections.mp hs))
    have hsplit : ∀ x ∈ posPart l, ∀ s ∈ (ts.map posPart).sections,
        x = 1 ∧ s.prod = 1 := by
      intro x hx s hs
      have hc := hmemjoint x hx s hs
      have hp := hprod1 _ hc
      rw [List.prod_cons] at hp
      have hxb := section_entry_bounds h hc x (List.mem_cons_self ..)
      have hsb : ∀ y ∈ s, 0 ≤ y ∧ y ≤ 1 := by
        intro y hy
        have := section_entry_bounds h hc y (List.mem_cons_of_mem _ hy)
        exact ⟨le_of_lt this.1, this.2⟩
      have hb := prod_bounds_of_bounds hsb
      exact mul_eq_one_of_unit (le_of_lt hxb.1) hxb.2 hb.1 hb.2 hp
    have hentts : entropy ts = 0 := by
      rw [entropy]
      apply List.sum_eq_zero
      intro y hy
      obtain ⟨s, hs, rfl⟩ := List.mem_map.mp hy
      have := (hsplit x0 hx0 s hs).2
      rw [this, Real.log_one]
      ring
    obtain ⟨idxs, hfa, hprod⟩ := ih hts hentts
    have hx01 : x0 = 1 := (hsplit x0 hx0 s0 hs0).1
    have h1l : (1 : ℝ) ∈ l := by
      rw [← hx01]
      exact (mem_posPart.mp hx0).1
    obtain ⟨i, hi, hgi⟩ := List.getElem_of_mem h1l
    refine ⟨i :: idxs, List.Forall₂.cons hi hfa, ?_⟩
    rw [List.zip_cons_cons, List.map_cons, List.prod_cons, hprod,
      List.getD_eq_getElem l 0 hi, hgi]
    norm_num

lemma entropy_zero_of_idxs : ∀ (ths : List (List ℝ)) (idxs : List ℕ),
    (∀ l ∈ ths, (∀ x ∈ l, 0 ≤ x) ∧ l.sum = 1) →
    List.Forall₂ (fun (l : List ℝ) (i : ℕ) => i < l.length) ths idxs →
    ((ths.zip idxs).map fun p => p.1.getD p.2 0).prod = 1 →
    entropy ths = 0 := by
  intro ths idxs h hfa
  induction hfa with
  | nil =>
    intro _
    norm_num [entropy, jointProbs, List.sections]
  | cons hpair hrest ih =>
    rename_i l i ts is
    intro hprod
    rw [List.zip_cons_cons, List.map_cons, List.prod_cons] at hprod
    have hl := h l (List.mem_cons_self ..)
    have hts : ∀ t ∈ ts, (∀ x ∈ t, 0 ≤ x) ∧ t.sum = 1 :=
      fun t ht => h t (List.mem_cons_of_mem _ ht)
    have hheadb : 0 ≤ l.getD i 0 ∧ l.getD i 0 ≤ 1 := by
      rw [List.getD_eq_getElem l 0 hpair]
      constructor
      · exact hl.1 _ (List.getElem_mem hpair)
      · have := List.single_le_sum hl.1 _ (List.getElem_mem hpair)
        rw [hl.2] at this
        exact this
    have hrestb : ∀ y ∈ (ts.zip is).map fun p => p.1.getD p.2 0, 0 ≤ y ∧ y ≤ 1 := by
      intro y hy
      obtain ⟨p, hp, rfl⟩ := List.mem_map.mp hy
      have hpt : p.1 ∈ ts := (List.of_mem_zip hp).1
      by_cases hrange : p.2 < p.1.length
      · rw [List.getD_eq_getElem p.1 0 hrange]
        constructor
        · exact (hts p.1 hpt).1 _ (List.getElem_mem hrange)
        · have := List.single_le_sum (hts p.1 hpt).1 _ (List.getElem_mem hrange)
          rw [(hts p.1 hpt).2] at this
          exact this
      · rw [List.getD_eq_default p.1 0 (le_of_not_lt hrange)]
        norm_num
    have hb := prod_bounds_of_bounds hrestb
    obtain ⟨hone, hrest1⟩ := mul_eq_one_of_unit hheadb.1 hheadb.2 hb.1 hb.2 hprod
    have hpp : posPart l = [1] := posPart_of_peak l i hl.1 hl.2 hpair hone
    rw [entropy_cons_of_posPart_one l ts hpp]
    exact ih hts hrest1

/-- Claim C8: for normalized non-negative per-aspect probability vectors,
`entropy` is non-negative, and it is zero exactly when some joint
assignment (one in-range index per aspect) has probability 1. -/
theorem entropy_spec (ths : List (List ℝ))
    (h : ∀ l ∈ ths, (∀ x ∈ l, 0 ≤ x) ∧ l.sum = 1) :
    0 ≤ entropy ths ∧
    (entropy ths = 0 ↔ ∃ idxs : List ℕ,
      List.Forall₂ (fun (l : List ℝ) (i : ℕ) => i < l.length) ths idxs ∧
      ((ths.zip idxs).map fun p => p.1.getD p.2 0).prod = 1) := by
  refine ⟨entropy_nonneg h, ?_, ?_⟩
  · exact entropy_zero_gives_idxs ths h
  · rintro ⟨idxs, hfa, hprod⟩
    exact entropy_zero_of_idxs ths idxs h hfa hprod

theorem entropy_spec_witness :
    0 ≤ entropy [[(1 : ℝ), 0]] ∧ entropy [[(1 : ℝ), 0]] = 0 := by
  have hh : ∀ l ∈ [[(1 : ℝ), 0]], (∀ x ∈ l, 0 ≤ x) ∧ l.sum = 1 := by
    intro l hl
    simp only [List.mem_singleton] at hl
    subst hl
    constructor
    · intro x hx
      rcases List.mem_cons.mp hx with rfl | hx
      · norm_num
      · simp only [List.mem_singleton] at hx
        rw [hx]
    · norm_num
  obtain ⟨h1, h2⟩ := entropy_spec [[(1 : ℝ), 0]] hh
  refine ⟨h1, h2.mpr ⟨[0], ?_, ?_⟩⟩
  · exact List.Forall₂.cons (by norm_num) List.Forall₂.nil
  · norm_num

end FedEx

end
